import Mathlib

/-!
Verification of the name index of the RepoSync repository
(`src/storage/index.cpp`, C++ namespace `repo`).

The index is a name-ordered container of entries with soft deletion and a
selector-resolution algorithm.  We embed the data model and each operation of
`index.cpp` shallowly:

* NDN names (an external library in the C++ code) are modelled as lists of
  components; a component is modelled as a `Nat`.  The set of NDN name
  components under NDN canonical order (length first, then bytes) is
  order-isomorphic to `Nat`, and the index only consumes the component order,
  the prefix test, and the successor operation, so this model is faithful.
* The skip list is modelled as a list of entries sorted strictly by name; the
  C++ skip list's `find`/`insert`/`erase`/`lower_bound` become list functions.
* `m_size` is a C++ `size_t`; it is modelled as a `Nat` with explicit
  wrap-around modulo `2 ^ 64` where the code increments or decrements it.
* The SHA-256 digest of a key locator is used by the code purely as an opaque
  equality token (spec section 4.4), so key locators are modelled as `Nat`
  and the digest as the identity map on that opaque token.
* A `ConstBufferPtr` that may be null is modelled as an `Option`;
  dereferencing a null pointer (undefined behaviour in C++) makes the
  selector predicate return `none`, which is propagated by the lookups.
* The unbounded `while (true)` loop of `Index::selectChild` receives an
  explicit fuel parameter; exhausting the fuel also yields `none`.
-/

namespace Repo

/-- A name component.  NDN components are opaque byte strings ordered
canonically (shorter first, then lexicographically); that order is a total
order isomorphic to `Nat`, and only the order structure is consumed here. -/
abbrev Component := Nat

/-- An NDN name: an ordered sequence of components (external `ndn::Name`). -/
abbrev Name := List Component

/-- Canonical order on names: component-wise, a proper prefix sorts first
(external `ndn::Name` comparison consumed through the skip list comparator). -/
def nameLt : Name → Name → Bool
  | _, [] => false
  | [], _ :: _ => true
  | a :: as, b :: bs => decide (a < b) || (a == b && nameLt as bs)

/-- Prefix test on names (external `ndn::Name::isPrefixOf`). -/
def nameIsPrefixOf : Name → Name → Bool
  | [], _ => true
  | _ :: _, [] => false
  | a :: as, b :: bs => a == b && nameIsPrefixOf as bs

/-- Successor of a name (external `ndn::Name::getSuccessor`): the last
component is replaced by its successor in component order; the successor of
the empty name appends the least component.  It is the least name that is
greater than the given name and does not have it as a prefix. -/
def getSuccessor : Name → Name
  | [] => [0]
  | [a] => [a + 1]
  | a :: rest => a :: getSuccessor rest

/-- Lifecycle status of an entry (`status` enumeration of the repository). -/
inductive Status
  | EXISTED
  | INSERTED
  | DELETED
  | NONE
deriving DecidableEq, Repr

/-- Opaque key locator value (external `ndn::KeyLocator`); only fed to the
digest function and compared through it. -/
abbrev KeyLocator := Nat

/-- Opaque digest token (external 256-bit SHA-256 output). -/
abbrev HashVal := Nat

/-- Models `Index::computeKeyLocatorHash` (index.cpp lines 221-227): the
external SHA-256 digest over the canonical encoding of a key locator.  The
code uses the digest purely as an opaque equality token, so it is modelled as
the identity on the opaque `KeyLocator` value. -/
def computeKeyLocatorHash (keyLocator : KeyLocator) : HashVal := keyLocator

/-- `Index::Entry` (index.hpp / index.cpp lines 298-329): immutable name,
optional key-locator digest and storage id, plus a mutable status.
`keyLocatorHash` is an `Option` because the C++ member is a
`ndn::ConstBufferPtr` that is null for entries built from a bare name or from
a `Data` whose signature has no key locator. -/
structure Entry where
  name : Name
  keyLocatorHash : Option HashVal
  id : Int
  status : Status
deriving DecidableEq, Repr

/-- The query selector fields consumed by the index (external
`ndn::Interest`, read-only).  `minSuffixComponents`, `maxSuffixComponents`
and `childSelector` are `-1` when absent, as in ndn-cxx; the exclude filter
is consumed only through emptiness and the `isExcluded` membership test, so
it is modelled as a list of components; `publisherPublicKeyLocator` is `none`
when the interest carries no publisher key locator. -/
structure Interest where
  name : Name
  minSuffixComponents : Int
  maxSuffixComponents : Int
  exclude : List Component
  childSelector : Int
  publisherPublicKeyLocator : Option KeyLocator
deriving DecidableEq, Repr

/-- A content item (external `ndn::Data`) as consumed by the index: its full
name, and the key locator of its signature when the signature has one
(`signature.hasKeyLocator()` in index.cpp lines 303-305). -/
structure Data where
  fullName : Name
  signatureKeyLocator : Option KeyLocator
deriving DecidableEq, Repr

/-- Entry construction from a `Data` (index.cpp lines 298-306): the
key-locator hash is set only if the signature has a key locator; status
starts as `EXISTED`. -/
def entryOfData (data : Data) (id : Int) : Entry :=
  { name := data.fullName
    keyLocatorHash := data.signatureKeyLocator.map computeKeyLocatorHash
    id := id
    status := Status.EXISTED }

/-- `2 ^ 64`: the modulus of the C++ `size_t` arithmetic on `m_size`. -/
def SIZE_MOD : Nat := 18446744073709551616

/-- The skip list `find` (by the name-only comparator): the entry whose name
equals the probe name, if any. -/
def slFindName : List Entry → Name → Option Entry
  | [], _ => none
  | e :: rest, n => if e.name = n then some e else slFindName rest n

/-- The skip list `insert`: ordered insertion by name; returns `false` and
leaves the list unchanged when an entry with an equal name is present. -/
def slInsert : List Entry → Entry → Bool × List Entry
  | [], e => (true, [e])
  | x :: rest, e =>
    if nameLt e.name x.name = true then (true, e :: x :: rest)
    else if nameLt x.name e.name = true then
      ((slInsert rest e).1, x :: (slInsert rest e).2)
    else (false, x :: rest)

/-- The skip list `erase` of the iterator returned by `find`: removes the
(unique, in a sorted list) entry with the given name. -/
def slEraseName : List Entry → Name → List Entry
  | [], _ => []
  | e :: rest, n => if e.name = n then rest else e :: slEraseName rest n

/-- `lower_bound(name)` of the skip list, as the suffix of the sorted list
starting at the first entry whose name is not below `name`. -/
def lowerBoundSuffix (l : List Entry) (n : Name) : List Entry :=
  match l with
  | [] => []
  | e :: rest => if nameLt e.name n = true then lowerBoundSuffix rest n else e :: rest

/-- `lower_bound(name)` of the skip list as an index (iterators of the
rightmost-disambiguation window are bidirectional, hence index-valued). -/
def lowerBoundIdx (l : List Entry) (n : Name) : Nat :=
  match l with
  | [] => 0
  | e :: rest => if nameLt e.name n = true then lowerBoundIdx rest n + 1 else 0

/-- Number of leading `DELETED` entries of a list. -/
def skipDeletedCount : List Entry → Nat
  | [] => 0
  | e :: rest => if e.status = Status.DELETED then skipDeletedCount rest + 1 else 0

/-- The tombstone-skipping loops of `Index::selectChild` (index.cpp lines
259-260, 266-267, 284-285): advance an iterator while it is not `end` and
points at a `DELETED` entry. -/
def skipDeletedIdx (l : List Entry) (i : Nat) : Nat :=
  i + skipDeletedCount (l.drop i)

/-- `std::find_if(first, last, pred)` over skip list iterators, with `step`
the remaining distance to `last`; returns the index of the first entry
satisfying the predicate, `some last` when none does, and `none` when the
predicate hits undefined behaviour or the scan would run past the container
(`first` beyond `last`, undefined behaviour in C++). -/
def findIfIdxAux (l : List Entry) (p : Entry → Option Bool) (last : Nat) :
    Nat → Nat → Option Nat
  | 0, k => if k = last then some last else none
  | step + 1, k =>
    match l.get? k with
    | none => none
    | some e =>
      match p e with
      | none => none
      | some true => some k
      | some false => findIfIdxAux l p last step (k + 1)

/-- `std::find_if(first, last, pred)` (index.cpp lines 286-287). -/
def findIfIdx (l : List Entry) (p : Entry → Option Bool) (last first : Nat) :
    Option Nat :=
  findIfIdxAux l p last (last - first) first

/-- `matchesSimpleSelectors` (index.cpp lines 31-60).  `hash` is the digest
of the interest's publisher key locator when present.  The result is `none`
when the code would dereference a null `ConstBufferPtr`
(`*entry.getKeyLocatorHash()` with no stored hash), which is undefined
behaviour in C++. -/
def matchesSimpleSelectors (interest : Interest) (hash : Option HashVal)
    (entry : Entry) : Option Bool :=
  if entry.status = Status.DELETED then some false
  else if nameIsPrefixOf interest.name entry.name = false then some false
  else
    if 0 ≤ interest.minSuffixComponents ∧
        ((entry.name.length - interest.name.length : Nat) : Int) <
          interest.minSuffixComponents then some false
    else if 0 ≤ interest.maxSuffixComponents ∧
        ((entry.name.length - interest.name.length : Nat) : Int) >
          interest.maxSuffixComponents then some false
    else if interest.exclude ≠ [] ∧ interest.name.length < entry.name.length ∧
        entry.name.getD interest.name.length 0 ∈ interest.exclude then some false
    else
      match interest.publisherPublicKeyLocator with
      | none => some true
      | some _ =>
        match entry.keyLocatorHash, hash with
        | some entryHash, some h => some (decide (entryHash = h))
        | _, _ => none

/-- The digest computed once per query from the publisher key locator
(index.cpp lines 235-241); null (`none`) when the interest has none. -/
def interestHash (interest : Interest) : Option HashVal :=
  interest.publisherPublicKeyLocator.map computeKeyLocatorHash

/-- The leftmost-disambiguation scan of `Index::selectChild` (index.cpp lines
243-255), iterating from the starting point: skip tombstones, return
not-found at the first entry that is not a descendant of the query name,
return the first entry satisfying the simple selectors; falling off the end
reaches the final `return` of line 295. -/
def leftmostScan (interest : Interest) (hash : Option HashVal) :
    List Entry → Option (Int × Name)
  | [] => some (0, [])
  | e :: rest =>
    if e.status = Status.DELETED then leftmostScan interest hash rest
    else if nameIsPrefixOf interest.name e.name = false then some (0, [])
    else
      match matchesSimpleSelectors interest hash e with
      | none => none
      | some true => some (e.id, e.name)
      | some false => leftmostScan interest hash rest

/-- The `while (true)` window-narrowing loop of the rightmost disambiguation
(index.cpp lines 268-293), with explicit fuel; the loop state is the `last`
iterator (an index; `l.length` is `end`).  `none` models fuel exhaustion or
undefined behaviour (`--prev` on `begin`, or a null-hash dereference). -/
def rightmostLoop (l : List Entry) (interest : Interest) (hash : Option HashVal)
    (boundary : Nat) : Nat → Nat → Option (Int × Name)
  | 0, _ => none
  | fuel + 1, last =>
    if last = 0 then none
    else
      match l.get? (last - 1) with
      | none => none
      | some prevEntry =>
        if last - 1 = boundary ∧ prevEntry.status ≠ Status.DELETED then
          match matchesSimpleSelectors interest hash prevEntry with
          | none => none
          | some true => some (prevEntry.id, prevEntry.name)
          | some false => some (0, [])
        else
          let first := skipDeletedIdx l
            (lowerBoundIdx l (prevEntry.name.take (interest.name.length + 1)))
          match findIfIdx l (matchesSimpleSelectors interest hash) last first with
          | none => none
          | some m =>
            if m ≠ last then
              match l.get? m with
              | some matchEntry => some (matchEntry.id, matchEntry.name)
              | none => none
            else rightmostLoop l interest hash boundary fuel first

/-- The rightmost branch of `Index::selectChild` (index.cpp lines 256-294):
compute the boundary (first live descendant), the initial `last` iterator
from the successor name (or `end` for the root query), and run the
window-narrowing loop. -/
def rightmostBranch (l : List Entry) (interest : Interest)
    (hash : Option HashVal) (fuel : Nat) : Option (Int × Name) :=
  let boundary := skipDeletedIdx l (lowerBoundIdx l interest.name)
  match l.get? boundary with
  | none => some (0, [])
  | some boundaryEntry =>
    if nameIsPrefixOf interest.name boundaryEntry.name = false then some (0, [])
    else
      let last := skipDeletedIdx l
        (if interest.name.length = 0 then l.length
         else lowerBoundIdx l (getSuccessor interest.name))
      rightmostLoop l interest hash boundary fuel last

/-- `Index::selectChild` (index.cpp lines 229-296): dispatch on the child
selector; the digest of the publisher key locator is computed once. -/
def selectChild (l : List Entry) (interest : Interest) (fuel : Nat) :
    Option (Int × Name) :=
  if interest.childSelector ≤ 0 then
    leftmostScan interest (interestHash interest) (lowerBoundSuffix l interest.name)
  else rightmostBranch l interest (interestHash interest) fuel

/-- The index state: configured maximum, `m_size` (a `size_t`), and the
name-sorted skip list. -/
structure Index where
  maxPackets : Nat
  size : Nat
  skipList : List Entry
deriving DecidableEq, Repr

/-- A fresh index with the given capacity (index.cpp lines 62-66). -/
def emptyIndex (nMaxPackets : Nat) : Index :=
  { maxPackets := nMaxPackets, size := 0, skipList := [] }

/-- Modelled from the spec: `Index::isFull` is declared in the header
`index.hpp`, which is not part of the sources; per spec section 7,
`CapacityExceeded` is "raised by insert when live size already equals the
configured maximum", i.e. the check is on `m_size` (the live count, which
`Index::erase` in index.cpp line 201 decrements), written with the usual
defensive `≥` guard which coincides with equality on states satisfying the
documented `size ≤ maximum` invariant. -/
def isFull (index : Index) : Bool :=
  decide (index.size ≥ index.maxPackets)

/-- The message of the `Error` thrown by both `insert` overloads
(index.cpp lines 81 and 103). -/
def indexFullMsg : String := "The Index is Full. Cannot Insert Any Data!"

/-- Common body of the two `Index::insert` overloads (index.cpp lines 77-96
and 98-118, which are textually identical apart from the entry
construction): throw when full; fresh insert when the name is absent;
resurrect (erase the tombstone, reinsert with status `INSERTED`) when the
entry with this name is `DELETED`; otherwise report `false`; `++m_size` on
success. -/
def insertImpl (index : Index) (entry : Entry) : Except String (Bool × Index) :=
  if isFull index = true then Except.error indexFullMsg
  else
    match slFindName index.skipList entry.name with
    | none =>
      if (slInsert index.skipList entry).1 = true then
        Except.ok (true, { index with skipList := (slInsert index.skipList entry).2,
                                      size := (index.size + 1) % SIZE_MOD })
      else Except.ok (false, { index with skipList := (slInsert index.skipList entry).2 })
    | some found =>
      if found.status = Status.DELETED then
        if (slInsert (slEraseName index.skipList entry.name)
              { entry with status := Status.INSERTED }).1 = true then
          Except.ok (true,
            { index with
              skipList := (slInsert (slEraseName index.skipList entry.name)
                            { entry with status := Status.INSERTED }).2,
              size := (index.size + 1) % SIZE_MOD })
        else Except.ok (false,
            { index with
              skipList := (slInsert (slEraseName index.skipList entry.name)
                            { entry with status := Status.INSERTED }).2 })
      else Except.ok (false, index)

/-- `Index::insert(const Data&, id)` (index.cpp lines 77-96). -/
def insertData (index : Index) (data : Data) (id : Int) :
    Except String (Bool × Index) :=
  insertImpl index (entryOfData data id)

/-- `Index::insert(const Name&, id, keyLocatorHash)` (index.cpp lines
98-118). -/
def insertName (index : Index) (fullName : Name) (id : Int)
    (keyLocatorHash : Option HashVal) : Except String (Bool × Index) :=
  insertImpl index { name := fullName, keyLocatorHash := keyLocatorHash,
                     id := id, status := Status.EXISTED }

/-- `Index::erase` (index.cpp lines 189-206): find by exact name (the
comparator ignores status, so a tombstone is found too); replace the found
entry by a copy with status `DELETED`; throw if the reinsertion collides;
`m_size--` (a `size_t` decrement, wrapping at zero). -/
def erase (index : Index) (fullName : Name) : Except String (Bool × Index) :=
  match slFindName index.skipList fullName with
  | none => Except.ok (false, index)
  | some found =>
    if (slInsert (slEraseName index.skipList fullName)
          { found with status := Status.DELETED }).1 = true then
      Except.ok (true,
        { index with
          skipList := (slInsert (slEraseName index.skipList fullName)
                        { found with status := Status.DELETED }).2,
          size := (index.size + SIZE_MOD - 1) % SIZE_MOD })
    else Except.error "Delete Entry: Cannot change status!"

/-- `Index::removeDeletedEntry` (index.cpp lines 208-219): sweep the whole
container, physically removing every `DELETED` entry; `m_size` untouched. -/
def removeDeletedEntry (index : Index) : Index :=
  { index with
    skipList := index.skipList.filter (fun e => decide (e.status ≠ Status.DELETED)) }

/-- `Index::find(const Interest&)` (index.cpp lines 120-133): seek
`lower_bound` of the query name; not-found when it is `end`, otherwise hand
off to `selectChild`. -/
def findInterest (index : Index) (interest : Interest) (fuel : Nat) :
    Option (Int × Name) :=
  if lowerBoundSuffix index.skipList interest.name = [] then some (0, [])
  else selectChild index.skipList interest fuel

/-- `Index::findFirstEntry` (index.cpp lines 169-187): scan forward from the
starting point, skipping tombstones; return the first entry having the
prefix, or not-found at the first non-descendant or at the end. -/
def findFirstEntry (pre : Name) : List Entry → Int × Name
  | [] => (0, [])
  | e :: rest =>
    if e.status = Status.DELETED then findFirstEntry pre rest
    else if nameIsPrefixOf pre e.name = true then (e.id, e.name)
    else (0, [])

/-- `Index::find(const Name&)` (index.cpp lines 135-147). -/
def findName (index : Index) (n : Name) : Int × Name :=
  if lowerBoundSuffix index.skipList n = [] then (0, [])
  else findFirstEntry n (lowerBoundSuffix index.skipList n)

/-- `Index::getStatus` (index.cpp lines 149-159): the status of the
`lower_bound` entry when the queried name is a prefix of its name, `NONE`
otherwise. -/
def getStatus (index : Index) (n : Name) : Status :=
  match lowerBoundSuffix index.skipList n with
  | [] => Status.NONE
  | e :: _ => if nameIsPrefixOf n e.name = true then e.status else Status.NONE

/-- `Index::hasData` (index.cpp lines 161-167): an entry with this data's
exact full name exists and is not `DELETED`. -/
def hasData (index : Index) (data : Data) : Bool :=
  match slFindName index.skipList data.fullName with
  | some found => decide (found.status ≠ Status.DELETED)
  | none => false

/-! ### Specification-side denotations

The predicates and reference results the claims assert about the lookups,
stated over the sorted entry list independently of the scanning algorithms. -/

/-- The simple-selector predicate as the claims state it, as a total
function: not `DELETED`; the query name is a prefix; the suffix length is
within the min/max bounds (negative bound means unbounded); the component
immediately following the query-name prefix (when there is one) is not
excluded; and with a publisher key locator, the entry's stored hash equals
the digest of that locator. -/
def specMatch (interest : Interest) (entry : Entry) : Bool :=
  decide (entry.status ≠ Status.DELETED) &&
  nameIsPrefixOf interest.name entry.name &&
  decide (interest.minSuffixComponents < 0 ∨
    interest.minSuffixComponents ≤ (entry.name.length : Int) - interest.name.length) &&
  decide (interest.maxSuffixComponents < 0 ∨
    (entry.name.length : Int) - interest.name.length ≤ interest.maxSuffixComponents) &&
  (match entry.name.drop interest.name.length with
   | [] => true
   | c :: _ => decide (c ∉ interest.exclude)) &&
  (match interest.publisherPublicKeyLocator with
   | none => true
   | some kl => decide (entry.keyLocatorHash = some (computeKeyLocatorHash kl)))

/-- The claimed result of a leftmost-disambiguation query: the `(id, name)`
of the canonically least entry satisfying the simple-selector predicate (the
first one of the sorted list), or the not-found sentinel. -/
def specLeftmostResult (index : Index) (interest : Interest) : Int × Name :=
  match index.skipList.find? (fun e => specMatch interest e) with
  | some e => (e.id, e.name)
  | none => (0, [])

/-- The claimed result of the selector-free `find(name)`: the `(id, name)` of
the lexicographically first live entry having the queried name as a prefix,
or the not-found sentinel. -/
def specFirstLive (index : Index) (n : Name) : Int × Name :=
  match index.skipList.find?
      (fun e => decide (e.status ≠ Status.DELETED) && nameIsPrefixOf n e.name) with
  | some e => (e.id, e.name)
  | none => (0, [])

/-- The reference oracle of the spec for rightmost disambiguation (spec
section 4.3, point 4): a full reverse linear scan of the descendant range
returning the last satisfying entry — equivalently, the last entry of the
sorted list satisfying the simple-selector predicate. -/
def rightmostOracle (index : Index) (interest : Interest) : Int × Name :=
  match (index.skipList.filter (fun e => specMatch interest e)).getLast? with
  | some e => (e.id, e.name)
  | none => (0, [])

/-- The status of an optional entry: its status when present, `NONE`
otherwise (the claimed denotation of `getStatus`). -/
def statusDenote : Option Entry → Status
  | some e => e.status
  | none => Status.NONE

/-- Number of live (non-`DELETED`) entries of the container. -/
def liveCount (l : List Entry) : Nat :=
  (l.filter (fun e => decide (e.status ≠ Status.DELETED))).length

/-- The container ordering invariant: entries strictly ascending by name
(hence names are pairwise distinct). -/
def SortedByName (l : List Entry) : Prop :=
  List.Pairwise (fun a b => nameLt a.name b.name = true) l

/-- Well-formed index state: sorted container, `m_size` equal to the live
count and within the configured maximum, and a capacity representable in
`size_t`. -/
def WF (index : Index) : Prop :=
  SortedByName index.skipList ∧ index.size = liveCount index.skipList ∧
  index.size ≤ index.maxPackets ∧ index.maxPackets < SIZE_MOD

instance (l : List Entry) : Decidable (SortedByName l) := by
  unfold SortedByName; infer_instance

instance (index : Index) : Decidable (WF index) := by
  unfold WF; infer_instance

/-! ### Concrete states used by the counterexamples, failing inputs and
witnesses.  Each is a literal state together with (further below) a lemma
showing it reachable from an empty index through the public operations. -/

/-- Entries `/1/1` (live) and `/1/2` (soft-deleted): the contents on which
the rightmost window narrowing never terminates. -/
def c1List : List Entry :=
  [{ name := [1, 1], keyLocatorHash := none, id := 1, status := Status.EXISTED },
   { name := [1, 2], keyLocatorHash := none, id := 2, status := Status.DELETED }]

/-- Index holding `c1List` (capacity 10, one live entry). -/
def c1State : Index := { maxPackets := 10, size := 1, skipList := c1List }

/-- Rightmost-disambiguation query for prefix `/1`, no other selectors. -/
def c1Interest : Interest :=
  { name := [1], minSuffixComponents := -1, maxSuffixComponents := -1,
    exclude := [], childSelector := 1, publisherPublicKeyLocator := none }

/-- Entries `/2/1` (live), `/2/2` and `/2/3` (both soft-deleted): a second
population on which the rightmost window narrowing never terminates. -/
def c6List : List Entry :=
  [{ name := [2, 1], keyLocatorHash := none, id := 1, status := Status.EXISTED },
   { name := [2, 2], keyLocatorHash := none, id := 2, status := Status.DELETED },
   { name := [2, 3], keyLocatorHash := none, id := 3, status := Status.DELETED }]

/-- Index holding `c6List`. -/
def c6State : Index := { maxPackets := 10, size := 1, skipList := c6List }

/-- Rightmost-disambiguation query for prefix `/2`. -/
def c6Interest : Interest :=
  { name := [2], minSuffixComponents := -1, maxSuffixComponents := -1,
    exclude := [], childSelector := 1, publisherPublicKeyLocator := none }

/-- Index holding the single live entry `/1` indexed from a `Data` whose
signature carries no key locator (so its `keyLocatorHash` is null). -/
def c2State : Index :=
  { maxPackets := 10, size := 1,
    skipList := [{ name := [1], keyLocatorHash := none, id := 1,
                   status := Status.EXISTED }] }

/-- Leftmost query for `/1` carrying a publisher key locator. -/
def c2Interest : Interest :=
  { name := [1], minSuffixComponents := -1, maxSuffixComponents := -1,
    exclude := [], childSelector := -1, publisherPublicKeyLocator := some 7 }

/-- State after `insert(/1, id 1)` into an empty index of capacity 10. -/
def c3St1 : Index :=
  { maxPackets := 10, size := 1,
    skipList := [{ name := [1], keyLocatorHash := none, id := 1,
                   status := Status.EXISTED }] }

/-- State after additionally `erase(/1)`: the tombstone remains, size 0. -/
def c3St2 : Index :=
  { maxPackets := 10, size := 0,
    skipList := [{ name := [1], keyLocatorHash := none, id := 1,
                   status := Status.DELETED }] }

/-- State after a second `erase(/1)`: the `size_t` decrement of `m_size`
wraps below zero. -/
def c3St3 : Index :=
  { maxPackets := 10, size := SIZE_MOD - 1,
    skipList := [{ name := [1], keyLocatorHash := none, id := 1,
                   status := Status.DELETED }] }

/-- A full index of capacity 2 holding live entries `/1` and `/2`. -/
def c4St : Index :=
  { maxPackets := 2, size := 2,
    skipList := [{ name := [1], keyLocatorHash := none, id := 1,
                   status := Status.EXISTED },
                 { name := [2], keyLocatorHash := none, id := 2,
                   status := Status.EXISTED }] }

/-- The resurrection sequence `insert(/1, 1); erase(/1); insert(/1, 2)` run
against an index constructed with capacity 0. -/
def c7seq : Except String Index :=
  (insertName (emptyIndex 0) [1] 1 none).bind (fun p1 =>
    (erase p1.2 [1]).bind (fun p2 =>
      (insertName p2.2 [1] 2 none).map (fun p3 => p3.2)))

/-- State after `insert(/1, 1); insert(/1/2, 2); erase(/1)` into an empty
index of capacity 10: a tombstone at `/1` and a live descendant `/1/2`. -/
def c8St : Index :=
  { maxPackets := 10, size := 1,
    skipList := [{ name := [1], keyLocatorHash := none, id := 1,
                   status := Status.DELETED },
                 { name := [1, 2], keyLocatorHash := none, id := 2,
                   status := Status.EXISTED }] }

/-- State after `erase(/1)` on `c4St`: tombstone at `/1`, live `/2`. -/
def c4St2 : Index :=
  { maxPackets := 2, size := 1,
    skipList := [{ name := [1], keyLocatorHash := none, id := 1,
                   status := Status.DELETED },
                 { name := [2], keyLocatorHash := none, id := 2,
                   status := Status.EXISTED }] }

/-- State after additionally `insert(/3, id 3)` on `c4St2`: the fresh insert
succeeds because `erase` already decremented the live size. -/
def c4St3 : Index :=
  { maxPackets := 2, size := 2,
    skipList := [{ name := [1], keyLocatorHash := none, id := 1,
                   status := Status.DELETED },
                 { name := [2], keyLocatorHash := none, id := 2,
                   status := Status.EXISTED },
                 { name := [3], keyLocatorHash := none, id := 3,
                   status := Status.EXISTED }] }

/-- A leftmost query for prefix `/1` with no further selectors. -/
def c2WInterest : Interest :=
  { name := [1], minSuffixComponents := -1, maxSuffixComponents := -1,
    exclude := [], childSelector := -1, publisherPublicKeyLocator := none }

/-! ### Order lemmas for the canonical name order -/

theorem nameLt_irrefl (n : Name) : nameLt n n = false := by
  induction n with
  | nil => rfl
  | cons a as ih => simp [nameLt, ih]

theorem nameLt_trans :
    ∀ (a b c : Name), nameLt a b = true → nameLt b c = true → nameLt a c = true := by
  intro a
  induction a with
  | nil =>
    intro b c hab hbc
    cases b with
    | nil => simp [nameLt] at hab
    | cons q qs =>
      cases c with
      | nil => simp [nameLt] at hbc
      | cons r rs => simp [nameLt]
  | cons p ps ih =>
    intro b c hab hbc
    cases b with
    | nil => simp [nameLt] at hab
    | cons q qs =>
      cases c with
      | nil => simp [nameLt] at hbc
      | cons r rs =>
        simp only [nameLt, Bool.or_eq_true, Bool.and_eq_true, decide_eq_true_eq,
          beq_iff_eq] at hab hbc ⊢
        rcases hab with h1 | ⟨rfl, h1⟩
        · rcases hbc with h2 | ⟨rfl, h2⟩
          · exact Or.inl (Nat.lt_trans h1 h2)
          · exact Or.inl h1
        · rcases hbc with h2 | ⟨rfl, h2⟩
          · exact Or.inl h2
          · exact Or.inr ⟨rfl, ih qs rs h1 h2⟩

theorem nameLt_asymm {a b : Name} (h : nameLt a b = true) : nameLt b a = false := by
  cases hba : nameLt b a with
  | false => rfl
  | true =>
    have := nameLt_trans a b a h hba
    rw [nameLt_irrefl] at this
    exact absurd this (by simp)

theorem nameLt_connex :
    ∀ (a b : Name), nameLt a b = false → nameLt b a = false → a = b := by
  intro a
  induction a with
  | nil =>
    intro b hab _
    cases b with
    | nil => rfl
    | cons q qs => simp [nameLt] at hab
  | cons p ps ih =>
    intro b hab hba
    cases b with
    | nil => simp [nameLt] at hba
    | cons q qs =>
      simp only [nameLt, Bool.or_eq_false_iff, Bool.and_eq_false_iff,
        decide_eq_false_iff_not, Nat.not_lt] at hab hba
      obtain ⟨hqp, hab2⟩ := hab
      obtain ⟨hpq, hba2⟩ := hba
      have hpqeq : p = q := Nat.le_antisymm hpq hqp
      subst hpqeq
      rcases hab2 with h | h
      · simp at h
      · rcases hba2 with h2 | h2
        · simp at h2
        · rw [ih qs h h2]

theorem prefix_not_lt :
    ∀ (p n : Name), nameIsPrefixOf p n = true → nameLt n p = false := by
  intro p
  induction p with
  | nil =>
    intro n _
    cases n with
    | nil => rfl
    | cons b bs => rfl
  | cons a as ih =>
    intro n hpn
    cases n with
    | nil => simp [nameIsPrefixOf] at hpn
    | cons b bs =>
      simp only [nameIsPrefixOf, Bool.and_eq_true, beq_iff_eq] at hpn
      obtain ⟨rfl, hrest⟩ := hpn
      simp [nameLt, ih bs hrest]

theorem strict_prefix_lt :
    ∀ (p n : Name), nameIsPrefixOf p n = true → p ≠ n → nameLt p n = true := by
  intro p
  induction p with
  | nil =>
    intro n _ hne
    cases n with
    | nil => exact absurd rfl hne
    | cons b bs => rfl
  | cons a as ih =>
    intro n hpn hne
    cases n with
    | nil => simp [nameIsPrefixOf] at hpn
    | cons b bs =>
      simp only [nameIsPrefixOf, Bool.and_eq_true, beq_iff_eq] at hpn
      obtain ⟨rfl, hrest⟩ := hpn
      have hne2 : as ≠ bs := fun h => hne (by rw [h])
      simp [nameLt, ih bs hrest hne2]

theorem nondesc_after :
    ∀ (p n m : Name), nameLt n p = false → nameIsPrefixOf p n = false →
      nameIsPrefixOf p m = true → nameLt m n = true := by
  intro p
  induction p with
  | nil => intro n m _ hpn _; simp [nameIsPrefixOf] at hpn
  | cons a as ih =>
    intro n m hnp hpn hpm
    cases n with
    | nil => simp [nameLt] at hnp
    | cons b bs =>
      cases m with
      | nil => simp [nameIsPrefixOf] at hpm
      | cons c cs =>
        rw [show nameIsPrefixOf (a :: as) (c :: cs) =
            (a == c && nameIsPrefixOf as cs) from rfl, Bool.and_eq_true,
          beq_iff_eq] at hpm
        obtain ⟨rfl, hpm2⟩ := hpm
        rw [show nameLt (b :: bs) (a :: as) =
            (decide (b < a) || (b == a && nameLt bs as)) from rfl,
          Bool.or_eq_false_iff] at hnp
        obtain ⟨hba, hnp2⟩ := hnp
        rw [decide_eq_false_iff_not, Nat.not_lt] at hba
        rw [show nameLt (a :: cs) (b :: bs) =
            (decide (a < b) || (a == b && nameLt cs bs)) from rfl,
          Bool.or_eq_true, Bool.and_eq_true, decide_eq_true_eq, beq_iff_eq]
        rcases Nat.lt_or_ge a b with hlt | hge
        · exact Or.inl hlt
        · have hab : a = b := Nat.le_antisymm hba hge
          subst hab
          rw [show nameIsPrefixOf (a :: as) (a :: bs) =
              (a == a && nameIsPrefixOf as bs) from rfl] at hpn
          simp only [beq_self_eq_true, Bool.true_and] at hpn
          rw [Bool.and_eq_false_iff] at hnp2
          rcases hnp2 with h | h
          · simp at h
          · exact Or.inr ⟨rfl, ih bs cs h hpn hpm2⟩

theorem nameIsPrefixOf_refl (n : Name) : nameIsPrefixOf n n = true := by
  induction n with
  | nil => rfl
  | cons a as ih => simp [nameIsPrefixOf, ih]

theorem prefix_length_le :
    ∀ (p n : Name), nameIsPrefixOf p n = true → p.length ≤ n.length := by
  intro p
  induction p with
  | nil => intro n _; simp
  | cons a as ih =>
    intro n hpn
    cases n with
    | nil => simp [nameIsPrefixOf] at hpn
    | cons b bs =>
      simp only [nameIsPrefixOf, Bool.and_eq_true, beq_iff_eq] at hpn
      simpa [Nat.succ_le_succ_iff] using ih bs hpn.2

theorem not_pre_of_lt {p n : Name} (h : nameLt n p = true) :
    nameIsPrefixOf p n = false := by
  cases hpn : nameIsPrefixOf p n with
  | false => rfl
  | true => rw [prefix_not_lt p n hpn] at h; exact absurd h (by simp)

/-! ### Lemmas on the skip list model -/

theorem lowerBoundSuffix_split (l : List Entry) (n : Name) :
    ∃ l1, l = l1 ++ lowerBoundSuffix l n ∧ ∀ e ∈ l1, nameLt e.name n = true := by
  induction l with
  | nil => exact ⟨[], rfl, by simp⟩
  | cons e rest ih =>
    cases h : nameLt e.name n with
    | true =>
      obtain ⟨l1, heq, hall⟩ := ih
      refine ⟨e :: l1, ?_, ?_⟩
      · simp [lowerBoundSuffix, h, ← heq]
      · intro x hx
        rcases List.mem_cons.mp hx with rfl | hx
        · exact h
        · exact hall x hx
    | false => exact ⟨[], by simp [lowerBoundSuffix, h], by simp⟩

theorem lowerBoundSuffix_head_ge {l : List Entry} {n : Name} {e : Entry}
    {t : List Entry} (h : lowerBoundSuffix l n = e :: t) :
    nameLt e.name n = false := by
  induction l with
  | nil => simp [lowerBoundSuffix] at h
  | cons x rest ih =>
    by_cases hx : nameLt x.name n = true
    · rw [lowerBoundSuffix, if_pos hx] at h
      exact ih h
    · rw [lowerBoundSuffix, if_neg hx] at h
      cases h
      exact Bool.of_not_eq_true hx

theorem mem_lowerBoundSuffix_not_lt {l : List Entry} {n : Name}
    (hs : SortedByName l) :
    ∀ e ∈ lowerBoundSuffix l n, nameLt e.name n = false := by
  induction l with
  | nil => simp [lowerBoundSuffix]
  | cons x rest ih =>
    have hs2 : SortedByName rest := (List.pairwise_cons.mp hs).2
    by_cases hx : nameLt x.name n = true
    · rw [lowerBoundSuffix, if_pos hx]
      exact ih hs2
    · rw [lowerBoundSuffix, if_neg hx]
      intro e he
      have hxn : nameLt x.name n = false := Bool.of_not_eq_true hx
      rcases List.mem_cons.mp he with rfl | he2
      · exact hxn
      · cases hen : nameLt e.name n with
        | false => rfl
        | true =>
          have hxe : nameLt x.name e.name = true :=
            (List.pairwise_cons.mp hs).1 e he2
          have := nameLt_trans _ _ _ hxe hen
          rw [hxn] at this
          exact absurd this (by simp)

theorem sorted_suffix {l : List Entry} (n : Name) (hs : SortedByName l) :
    SortedByName (lowerBoundSuffix l n) := by
  obtain ⟨l1, heq, _⟩ := lowerBoundSuffix_split l n
  rw [heq] at hs
  exact (List.pairwise_append.mp hs).2.1

theorem find?_append_none {p : Entry → Bool} (l1 l2 : List Entry)
    (h : ∀ x ∈ l1, p x = false) :
    (l1 ++ l2).find? p = l2.find? p := by
  induction l1 with
  | nil => simp
  | cons x rest ih =>
    have hx : p x = false := h x (List.mem_cons_self x rest)
    simp only [List.cons_append, List.find?_cons, hx]
    exact ih (fun y hy => h y (List.mem_cons_of_mem x hy))

theorem sorted_find?_min {l : List Entry} {p : Entry → Bool} {e : Entry}
    (hs : SortedByName l) (he : e ∈ l) (hpe : p e = true)
    (hmin : ∀ x ∈ l, p x = true → x = e ∨ nameLt e.name x.name = true) :
    l.find? p = some e := by
  induction l with
  | nil => simp at he
  | cons y rest ih =>
    have hs2 : SortedByName rest := (List.pairwise_cons.mp hs).2
    by_cases hye : y = e
    · subst hye
      simp [List.find?_cons, hpe]
    · have hpy : p y = false := by
        cases hy : p y with
        | false => rfl
        | true =>
          rcases hmin y (List.mem_cons_self y rest) hy with h | h
          · exact absurd h hye
          · have hmem : e ∈ rest := by
              rcases List.mem_cons.mp he with rfl | h2
              · exact absurd rfl hye
              · exact h2
            have hye2 : nameLt y.name e.name = true :=
              (List.pairwise_cons.mp hs).1 e hmem
            have := nameLt_trans _ _ _ hye2 h
            rw [nameLt_irrefl] at this
            exact absurd this (by simp)
      simp only [List.find?_cons, hpy]
      have hmem : e ∈ rest := by
        rcases List.mem_cons.mp he with rfl | h2
        · exact absurd rfl hye
        · exact h2
      exact ih hs2 hmem
        (fun x hx hpx => hmin x (List.mem_cons_of_mem y hx) hpx)

theorem slFindName_none_iff {l : List Entry} {n : Name} :
    slFindName l n = none ↔ ∀ x ∈ l, x.name ≠ n := by
  induction l with
  | nil => simp [slFindName]
  | cons e rest ih =>
    by_cases h : e.name = n
    · simp [slFindName, h]
    · simp only [slFindName, if_neg h, ih, List.mem_cons]
      constructor
      · rintro hall x (rfl | hx)
        · exact h
        · exact hall x hx
      · intro hall x hx
        exact hall x (Or.inr hx)

theorem slFindName_some {l : List Entry} {n : Name} {e : Entry}
    (h : slFindName l n = some e) : e ∈ l ∧ e.name = n := by
  induction l with
  | nil => simp [slFindName] at h
  | cons x rest ih =>
    by_cases hx : x.name = n
    · rw [slFindName, if_pos hx] at h
      cases h
      exact ⟨List.mem_cons_self _ _, hx⟩
    · rw [slFindName, if_neg hx] at h
      obtain ⟨hmem, hname⟩ := ih h
      exact ⟨List.mem_cons_of_mem x hmem, hname⟩

theorem slFindName_of_mem {l : List Entry} {n : Name} {e : Entry}
    (hs : SortedByName l) (he : e ∈ l) (hn : e.name = n) :
    slFindName l n = some e := by
  induction l with
  | nil => simp at he
  | cons x rest ih =>
    have hs2 : SortedByName rest := (List.pairwise_cons.mp hs).2
    rcases List.mem_cons.mp he with rfl | hmem
    · rw [slFindName, if_pos hn]
    · by_cases hx : x.name = n
      · have hlt : nameLt x.name e.name = true :=
          (List.pairwise_cons.mp hs).1 e hmem
        rw [hx, ← hn] at hlt
        rw [nameLt_irrefl] at hlt
        exact absurd hlt (by simp)
      · rw [slFindName, if_neg hx]
        exact ih hs2 hmem

theorem slInsert_mem {l : List Entry} {e x : Entry}
    (h : x ∈ (slInsert l e).2) : x ∈ l ∨ x = e := by
  induction l with
  | nil =>
    simp only [slInsert, List.mem_singleton] at h
    exact Or.inr h
  | cons y rest ih =>
    by_cases h1 : nameLt e.name y.name = true
    · rw [slInsert, if_pos h1] at h
      rcases List.mem_cons.mp h with rfl | h2
      · exact Or.inr rfl
      · exact Or.inl h2
    · by_cases h2 : nameLt y.name e.name = true
      · rw [slInsert, if_neg h1, if_pos h2] at h
        rcases List.mem_cons.mp h with rfl | h3
        · exact Or.inl (List.mem_cons_self _ _)
        · rcases ih h3 with h4 | h4
          · exact Or.inl (List.mem_cons_of_mem y h4)
          · exact Or.inr h4
      · rw [slInsert, if_neg h1, if_neg h2] at h
        exact Or.inl h

theorem mem_slInsert_self {l : List Entry} {e : Entry}
    (h : (slInsert l e).1 = true) : e ∈ (slInsert l e).2 := by
  induction l with
  | nil => simp [slInsert]
  | cons y rest ih =>
    by_cases h1 : nameLt e.name y.name = true
    · rw [slInsert, if_pos h1]
      exact List.mem_cons_self e _
    · by_cases h2 : nameLt y.name e.name = true
      · rw [slInsert, if_neg h1, if_pos h2] at h ⊢
        exact List.mem_cons_of_mem y (ih h)
      · rw [slInsert, if_neg h1, if_neg h2] at h
        simp at h

theorem mem_slInsert_of_mem {l : List Entry} {e x : Entry} (hx : x ∈ l) :
    x ∈ (slInsert l e).2 := by
  induction l with
  | nil => simp at hx
  | cons y rest ih =>
    by_cases h1 : nameLt e.name y.name = true
    · rw [slInsert, if_pos h1]
      exact List.mem_cons_of_mem e hx
    · by_cases h2 : nameLt y.name e.name = true
      · rw [slInsert, if_neg h1, if_pos h2]
        rcases List.mem_cons.mp hx with rfl | h3
        · exact List.mem_cons_self x _
        · exact List.mem_cons_of_mem y (ih h3)
      · rw [slInsert, if_neg h1, if_neg h2]
        exact hx

theorem slInsert_success {l : List Entry} {e : Entry}
    (h : ∀ x ∈ l, x.name ≠ e.name) : (slInsert l e).1 = true := by
  induction l with
  | nil => rfl
  | cons y rest ih =>
    by_cases h1 : nameLt e.name y.name = true
    · rw [slInsert, if_pos h1]
    · by_cases h2 : nameLt y.name e.name = true
      · rw [slInsert, if_neg h1, if_pos h2]
        exact ih (fun x hx => h x (List.mem_cons_of_mem y hx))
      · have : y.name = e.name :=
          nameLt_connex _ _ (Bool.of_not_eq_true h2) (Bool.of_not_eq_true h1)
        exact absurd this (h y (List.mem_cons_self y rest))

theorem slInsert_sorted {l : List Entry} (e : Entry) (hs : SortedByName l) :
    SortedByName (slInsert l e).2 := by
  induction l with
  | nil => simp [slInsert, SortedByName]
  | cons y rest ih =>
    obtain ⟨hy, hrest⟩ := List.pairwise_cons.mp hs
    by_cases h1 : nameLt e.name y.name = true
    · rw [slInsert, if_pos h1]
      refine List.pairwise_cons.mpr ⟨?_, hs⟩
      intro x hx
      rcases List.mem_cons.mp hx with rfl | h2
      · exact h1
      · exact nameLt_trans _ _ _ h1 (hy x h2)
    · by_cases h2 : nameLt y.name e.name = true
      · rw [slInsert, if_neg h1, if_pos h2]
        refine List.pairwise_cons.mpr ⟨?_, ih hrest⟩
        intro x hx
        rcases slInsert_mem hx with h3 | rfl
        · exact hy x h3
        · exact h2
      · rw [slInsert, if_neg h1, if_neg h2]
        exact hs

theorem slInsert_fail {l : List Entry} {e : Entry}
    (h : (slInsert l e).1 = false) : (slInsert l e).2 = l := by
  induction l with
  | nil => simp [slInsert] at h
  | cons y rest ih =>
    by_cases h1 : nameLt e.name y.name = true
    · rw [slInsert, if_pos h1] at h
      simp at h
    · by_cases h2 : nameLt y.name e.name = true
      · rw [slInsert, if_neg h1, if_pos h2] at h ⊢
        rw [ih h]
      · rw [slInsert, if_neg h1, if_neg h2]

theorem slEraseName_sublist (l : List Entry) (n : Name) :
    (slEraseName l n).Sublist l := by
  induction l with
  | nil => simp [slEraseName]
  | cons e rest ih =>
    by_cases h : e.name = n
    · rw [slEraseName, if_pos h]
      exact List.sublist_cons_self e rest
    · rw [slEraseName, if_neg h]
      exact List.Sublist.cons₂ e ih

theorem slEraseName_sorted {l : List Entry} (n : Name) (hs : SortedByName l) :
    SortedByName (slEraseName l n) :=
  List.Pairwise.sublist (slEraseName_sublist l n) hs

theorem mem_slEraseName_of_mem {l : List Entry} {n : Name} {x : Entry}
    (hx : x ∈ l) (hn : x.name ≠ n) : x ∈ slEraseName l n := by
  induction l with
  | nil => simp at hx
  | cons e rest ih =>
    by_cases h : e.name = n
    · rw [slEraseName, if_pos h]
      rcases List.mem_cons.mp hx with rfl | h2
      · exact absurd h hn
      · exact h2
    · rw [slEraseName, if_neg h]
      rcases List.mem_cons.mp hx with rfl | h2
      · exact List.mem_cons_self x _
      · exact List.mem_cons_of_mem e (ih h2)

theorem slEraseName_not_named {l : List Entry} {n : Name} {x : Entry}
    (hs : SortedByName l) (hx : x ∈ slEraseName l n) : x.name ≠ n := by
  induction l with
  | nil => simp [slEraseName] at hx
  | cons e rest ih =>
    obtain ⟨he, hrest⟩ := List.pairwise_cons.mp hs
    by_cases h : e.name = n
    · rw [slEraseName, if_pos h] at hx
      intro hxn
      have := he x hx
      rw [hxn, ← h, nameLt_irrefl] at this
      exact absurd this (by simp)
    · rw [slEraseName, if_neg h] at hx
      rcases List.mem_cons.mp hx with rfl | h2
      · exact h
      · exact ih hrest h2

/-! ### The selector predicate of the code versus the predicate of the
claims -/

theorem drop_head_getD :
    ∀ (l : List Component) (k : Nat), k < l.length →
      l.drop k = l.getD k 0 :: l.drop (k + 1) := by
  intro l
  induction l with
  | nil => intro k hk; simp at hk
  | cons a as ih =>
    intro k hk
    cases k with
    | zero => simp [List.getD]
    | succ k2 =>
      have hk2 : k2 < as.length := by simpa using hk
      simpa [List.getD] using ih k2 hk2

/-- On entries that do store a key-locator hash (or for interests with no
publisher key locator), the code's `matchesSimpleSelectors` is defined and
computes exactly the predicate stated by the claims. -/
theorem matches_eq_specMatch (i : Interest) (e : Entry)
    (hkl : i.publisherPublicKeyLocator = none ∨ e.keyLocatorHash ≠ none) :
    matchesSimpleSelectors i (interestHash i) e = some (specMatch i e) := by
  unfold matchesSimpleSelectors specMatch interestHash
  by_cases h1 : e.status = Status.DELETED
  · simp [h1]
  · rw [if_neg h1]
    cases h2 : nameIsPrefixOf i.name e.name with
    | false => simp [h2, h1]
    | true =>
      rw [if_neg (by simp : ¬ (true : Bool) = false)]
      have hlen : i.name.length ≤ e.name.length := prefix_length_le _ _ h2
      have hcast : ((e.name.length - i.name.length : Nat) : Int)
          = (e.name.length : Int) - i.name.length := by omega
      have hc1 : decide (e.status ≠ Status.DELETED) = true := by simp [h1]
      by_cases h3 : 0 ≤ i.minSuffixComponents ∧
          ((e.name.length - i.name.length : Nat) : Int) < i.minSuffixComponents
      · rw [if_pos h3]
        have hc3 : decide (i.minSuffixComponents < 0 ∨
            i.minSuffixComponents ≤ (e.name.length : Int) - i.name.length)
            = false := by
          rw [decide_eq_false_iff_not]
          push_neg
          omega
        refine congrArg some ?_
        rw [hc3]
        simp
      · rw [if_neg h3]
        push_neg at h3
        have hc3 : decide (i.minSuffixComponents < 0 ∨
            i.minSuffixComponents ≤ (e.name.length : Int) - i.name.length)
            = true := by
          rw [decide_eq_true_eq]
          omega
        by_cases h4 : 0 ≤ i.maxSuffixComponents ∧
            ((e.name.length - i.name.length : Nat) : Int) > i.maxSuffixComponents
        · rw [if_pos h4]
          have hc4 : decide (i.maxSuffixComponents < 0 ∨
              (e.name.length : Int) - i.name.length ≤ i.maxSuffixComponents)
              = false := by
            rw [decide_eq_false_iff_not]
            push_neg
            omega
          refine congrArg some ?_
          rw [hc4]
          simp
        · rw [if_neg h4]
          push_neg at h4
          have hc4 : decide (i.maxSuffixComponents < 0 ∨
              (e.name.length : Int) - i.name.length ≤ i.maxSuffixComponents)
              = true := by
            rw [decide_eq_true_eq]
            omega
          by_cases h5 : i.exclude ≠ [] ∧ i.name.length < e.name.length ∧
              e.name.getD i.name.length 0 ∈ i.exclude
          · rw [if_pos h5]
            refine congrArg some ?_
            cases hdrop : e.name.drop i.name.length with
            | nil =>
              have hld := congrArg List.length hdrop
              rw [List.length_drop] at hld
              simp only [List.length_nil] at hld
              have := h5.2.1
              omega
            | cons c cs =>
              have hcgetD : c = e.name.getD i.name.length 0 := by
                have h6 := drop_head_getD e.name i.name.length h5.2.1
                rw [hdrop] at h6
                injection h6 with h7 _
              have hc5 : decide (c ∉ i.exclude) = false := by
                rw [decide_eq_false_iff_not]
                simp only [not_not]
                exact hcgetD ▸ h5.2.2
              simp [hc5]
          · rw [if_neg h5]
            cases hdrop : e.name.drop i.name.length with
            | nil =>
              cases hpub : i.publisherPublicKeyLocator with
              | none =>
                refine congrArg some ?_
                rw [hc1, hc3, hc4]
                simp
              | some kl =>
                have hne : e.keyLocatorHash ≠ none := by
                  rcases hkl with h | h
                  · rw [hpub] at h; cases h
                  · exact h
                obtain ⟨eh, heh⟩ := Option.ne_none_iff_exists'.mp hne
                rw [heh]
                refine congrArg some ?_
                rw [hc1, hc3, hc4]
                simp
            | cons c cs =>
              have hlt2 : i.name.length < e.name.length := by
                have hld := congrArg List.length hdrop
                rw [List.length_drop] at hld
                simp only [List.length_cons] at hld
                omega
              have hcgetD : c = e.name.getD i.name.length 0 := by
                have h6 := drop_head_getD e.name i.name.length hlt2
                rw [hdrop] at h6
                injection h6 with h7 _
              have hc5 : decide (c ∉ i.exclude) = true := by
                rw [decide_eq_true_eq]
                intro hmem
                by_cases hex : i.exclude = []
                · rw [hex] at hmem; simp at hmem
                · exact h5 ⟨hex, hlt2, hcgetD ▸ hmem⟩
              cases hpub : i.publisherPublicKeyLocator with
              | none =>
                refine congrArg some ?_
                rw [hc1, hc3, hc4]
                simp [hc5]
              | some kl =>
                have hne : e.keyLocatorHash ≠ none := by
                  rcases hkl with h | h
                  · rw [hpub] at h; cases h
                  · exact h
                obtain ⟨eh, heh⟩ := Option.ne_none_iff_exists'.mp hne
                rw [heh]
                refine congrArg some ?_
                rw [hc1, hc3, hc4]
                simp [hc5]

theorem specMatch_deleted {i : Interest} {e : Entry}
    (h : e.status = Status.DELETED) : specMatch i e = false := by
  unfold specMatch
  simp [h]

theorem specMatch_not_desc {i : Interest} {e : Entry}
    (h : nameIsPrefixOf i.name e.name = false) : specMatch i e = false := by
  unfold specMatch
  rw [h]
  simp

theorem specMatch_desc {i : Interest} {e : Entry}
    (h : specMatch i e = true) : nameIsPrefixOf i.name e.name = true := by
  cases hp : nameIsPrefixOf i.name e.name with
  | true => rfl
  | false => rw [specMatch_not_desc hp] at h; exact absurd h (by simp)

theorem specMatch_live {i : Interest} {e : Entry}
    (h : specMatch i e = true) : e.status ≠ Status.DELETED := by
  intro hd
  rw [specMatch_deleted hd] at h
  exact absurd h (by simp)

/-! ### The leftmost scan computes the first satisfying entry -/

theorem leftmostScan_eq (i : Interest) (s : List Entry)
    (hs : SortedByName s)
    (hge : ∀ e ∈ s, nameLt e.name i.name = false)
    (hkl : i.publisherPublicKeyLocator = none ∨
      ∀ e ∈ s, e.keyLocatorHash ≠ none) :
    leftmostScan i (interestHash i) s =
      some (match s.find? (fun e => specMatch i e) with
            | some e => (e.id, e.name)
            | none => (0, ([] : Name))) := by
  induction s with
  | nil => rfl
  | cons e rest ih =>
    have hs2 : SortedByName rest := (List.pairwise_cons.mp hs).2
    have hge2 : ∀ x ∈ rest, nameLt x.name i.name = false :=
      fun x hx => hge x (List.mem_cons_of_mem e hx)
    have hkl2 : i.publisherPublicKeyLocator = none ∨
        ∀ x ∈ rest, x.keyLocatorHash ≠ none := by
      rcases hkl with h | h
      · exact Or.inl h
      · exact Or.inr (fun x hx => h x (List.mem_cons_of_mem e hx))
    have hkle : i.publisherPublicKeyLocator = none ∨ e.keyLocatorHash ≠ none := by
      rcases hkl with h | h
      · exact Or.inl h
      · exact Or.inr (h e (List.mem_cons_self e rest))
    by_cases hdel : e.status = Status.DELETED
    · rw [leftmostScan, if_pos hdel, List.find?_cons,
        (specMatch_deleted hdel : specMatch i e = false)]
      exact ih hs2 hge2 hkl2
    · rw [leftmostScan, if_neg hdel]
      cases hpre : nameIsPrefixOf i.name e.name with
      | false =>
        rw [if_pos rfl]
        have hnone : (e :: rest).find? (fun x => specMatch i x) = none := by
          rw [List.find?_eq_none]
          intro x hx
          simp only [Bool.not_eq_true]
          rcases List.mem_cons.mp hx with rfl | hx2
          · exact specMatch_not_desc hpre
          · cases hm : specMatch i x with
            | false => rfl
            | true =>
              have hdesc := specMatch_desc hm
              have hlt : nameLt x.name e.name = true :=
                nondesc_after i.name e.name x.name
                  (hge e (List.mem_cons_self e rest)) hpre hdesc
              have hlt2 : nameLt e.name x.name = true :=
                (List.pairwise_cons.mp hs).1 x hx2
              rw [nameLt_asymm hlt2] at hlt
              exact absurd hlt (by simp)
        rw [hnone]
      | true =>
        rw [if_neg (by simp : ¬ (true : Bool) = false)]
        rw [matches_eq_specMatch i e hkle]
        cases hm : specMatch i e with
        | true => rw [List.find?_cons, hm]
        | false =>
          rw [List.find?_cons, hm]
          exact ih hs2 hge2 hkl2

/-- Characterization of `find(interest)` in leftmost-disambiguation mode,
provided the entries scanned store a key-locator hash whenever the query
carries a publisher key locator (otherwise the code's predicate dereferences
a null pointer, see the C10 analysis). -/
theorem findInterest_leftmost (index : Index) (i : Interest) (fuel : Nat)
    (hs : SortedByName index.skipList) (hsel : i.childSelector ≤ 0)
    (hkl : i.publisherPublicKeyLocator = none ∨
      ∀ e ∈ index.skipList, e.keyLocatorHash ≠ none) :
    findInterest index i fuel = some (specLeftmostResult index i) := by
  obtain ⟨l1, heq, hl1⟩ := lowerBoundSuffix_split index.skipList i.name
  have hl1f : ∀ x ∈ l1, specMatch i x = false := by
    intro x hx
    exact specMatch_not_desc (not_pre_of_lt (hl1 x hx))
  have hfind : index.skipList.find? (fun e => specMatch i e) =
      (lowerBoundSuffix index.skipList i.name).find? (fun e => specMatch i e) := by
    conv_lhs => rw [heq]
    exact find?_append_none l1 _ hl1f
  unfold findInterest specLeftmostResult
  by_cases hemp : lowerBoundSuffix index.skipList i.name = []
  · rw [if_pos hemp, hfind, hemp]
    simp
  · rw [if_neg hemp]
    unfold selectChild
    rw [if_pos hsel]
    have hssorted : SortedByName (lowerBoundSuffix index.skipList i.name) :=
      sorted_suffix i.name hs
    have hsge : ∀ e ∈ lowerBoundSuffix index.skipList i.name,
        nameLt e.name i.name = false :=
      mem_lowerBoundSuffix_not_lt hs
    have hmemsub : ∀ e ∈ lowerBoundSuffix index.skipList i.name,
        e ∈ index.skipList := by
      intro e he
      rw [heq]
      exact List.mem_append_right l1 he
    have hskl : i.publisherPublicKeyLocator = none ∨
        ∀ e ∈ lowerBoundSuffix index.skipList i.name, e.keyLocatorHash ≠ none := by
      rcases hkl with h | h
      · exact Or.inl h
      · exact Or.inr (fun e he => h e (hmemsub e he))
    rw [leftmostScan_eq i _ hssorted hsge hskl, hfind]

/-! ### Characterization of the selector-free lookup and of getStatus -/

theorem findFirstEntry_eq (n : Name) (s : List Entry)
    (hs : SortedByName s)
    (hge : ∀ e ∈ s, nameLt e.name n = false) :
    findFirstEntry n s =
      match s.find? (fun e => decide (e.status ≠ Status.DELETED) &&
          nameIsPrefixOf n e.name) with
      | some e => (e.id, e.name)
      | none => (0, ([] : Name)) := by
  induction s with
  | nil => rfl
  | cons e rest ih =>
    have hs2 : SortedByName rest := (List.pairwise_cons.mp hs).2
    have hge2 : ∀ x ∈ rest, nameLt x.name n = false :=
      fun x hx => hge x (List.mem_cons_of_mem e hx)
    by_cases hdel : e.status = Status.DELETED
    · have hp : (decide (e.status ≠ Status.DELETED) &&
          nameIsPrefixOf n e.name) = false := by
        simp [hdel]
      rw [findFirstEntry, if_pos hdel, List.find?_cons, hp]
      exact ih hs2 hge2
    · rw [findFirstEntry, if_neg hdel]
      cases hpre : nameIsPrefixOf n e.name with
      | true =>
        have hp : (decide (e.status ≠ Status.DELETED) &&
            nameIsPrefixOf n e.name) = true := by
          simp [hdel, hpre]
        rw [if_pos rfl, List.find?_cons, hp]
      | false =>
        rw [if_neg (by simp : ¬ (false : Bool) = true)]
        have hnone : (e :: rest).find? (fun x =>
            decide (x.status ≠ Status.DELETED) && nameIsPrefixOf n x.name)
            = none := by
          rw [List.find?_eq_none]
          intro x hx
          simp only [Bool.not_eq_true]
          rcases List.mem_cons.mp hx with rfl | hx2
          · simp [hpre]
          · cases hm : (decide (x.status ≠ Status.DELETED) &&
                nameIsPrefixOf n x.name) with
            | false => rfl
            | true =>
              have hdesc : nameIsPrefixOf n x.name = true := by
                simp only [Bool.and_eq_true] at hm
                exact hm.2
              have hlt : nameLt x.name e.name = true :=
                nondesc_after n e.name x.name
                  (hge e (List.mem_cons_self e rest)) hpre hdesc
              have hlt2 : nameLt e.name x.name = true :=
                (List.pairwise_cons.mp hs).1 x hx2
              rw [nameLt_asymm hlt2] at hlt
              exact absurd hlt (by simp)
        rw [hnone]

/-- Characterization of the selector-free `find(name)`: it computes
`specFirstLive`, the first live entry extending the queried name. -/
theorem findName_eq (index : Index) (n : Name)
    (hs : SortedByName index.skipList) :
    findName index n = specFirstLive index n := by
  obtain ⟨l1, heq, hl1⟩ := lowerBoundSuffix_split index.skipList n
  have hl1f : ∀ x ∈ l1, (decide (x.status ≠ Status.DELETED) &&
      nameIsPrefixOf n x.name) = false := by
    intro x hx
    rw [not_pre_of_lt (hl1 x hx)]
    simp
  have hfind : index.skipList.find? (fun e =>
      decide (e.status ≠ Status.DELETED) && nameIsPrefixOf n e.name) =
      (lowerBoundSuffix index.skipList n).find? (fun e =>
        decide (e.status ≠ Status.DELETED) && nameIsPrefixOf n e.name) := by
    conv_lhs => rw [heq]
    exact find?_append_none l1 _ hl1f
  unfold findName specFirstLive
  by_cases hemp : lowerBoundSuffix index.skipList n = []
  · rw [if_pos hemp, hfind, hemp]
    simp
  · rw [if_neg hemp, hfind]
    exact findFirstEntry_eq n _ (sorted_suffix n hs) (mem_lowerBoundSuffix_not_lt hs)

/-- Characterization of `getStatus`: the status of the first entry whose
name extends the queried name, `NONE` when there is none. -/
theorem getStatus_eq (index : Index) (n : Name)
    (hs : SortedByName index.skipList) :
    getStatus index n =
      statusDenote (index.skipList.find? (fun e => nameIsPrefixOf n e.name)) := by
  obtain ⟨l1, heq, hl1⟩ := lowerBoundSuffix_split index.skipList n
  have hl1f : ∀ x ∈ l1, nameIsPrefixOf n x.name = false :=
    fun x hx => not_pre_of_lt (hl1 x hx)
  have hfind : index.skipList.find? (fun e => nameIsPrefixOf n e.name) =
      (lowerBoundSuffix index.skipList n).find?
        (fun e => nameIsPrefixOf n e.name) := by
    conv_lhs => rw [heq]
    exact find?_append_none l1 _ hl1f
  rw [getStatus, hfind]
  cases hsuf : lowerBoundSuffix index.skipList n with
  | nil => simp [statusDenote]
  | cons e t =>
    cases hpre : nameIsPrefixOf n e.name with
    | true =>
      rw [List.find?_cons, hpre]
      simp [hpre, statusDenote]
    | false =>
      have hnone : (e :: t).find? (fun x => nameIsPrefixOf n x.name) = none := by
        rw [List.find?_eq_none]
        intro x hx
        simp only [Bool.not_eq_true]
        rcases List.mem_cons.mp hx with rfl | hx2
        · exact hpre
        · cases hm : nameIsPrefixOf n x.name with
          | false => rfl
          | true =>
            have hheadge : nameLt e.name n = false :=
              lowerBoundSuffix_head_ge hsuf
            have hlt : nameLt x.name e.name = true :=
              nondesc_after n e.name x.name hheadge hpre hm
            have hsorted : SortedByName (e :: t) := by
              rw [← hsuf]
              exact sorted_suffix n hs
            have hlt2 : nameLt e.name x.name = true :=
              (List.pairwise_cons.mp hsorted).1 x hx2
            rw [nameLt_asymm hlt2] at hlt
            exact absurd hlt (by simp)
      rw [hnone]
      simp [hpre, statusDenote]

/-! ### Operation-level lemmas -/

theorem sorted_name_unique {l : List Entry} (hs : SortedByName l)
    {x y : Entry} (hx : x ∈ l) (hy : y ∈ l) (hnm : x.name = y.name) : x = y := by
  induction l with
  | nil => simp at hx
  | cons e rest ih =>
    obtain ⟨he, hrest⟩ := List.pairwise_cons.mp hs
    rcases List.mem_cons.mp hx with rfl | hx2
    · rcases List.mem_cons.mp hy with rfl | hy2
      · rfl
      · have hlt := he y hy2
        rw [← hnm, nameLt_irrefl] at hlt
        exact absurd hlt (by simp)
    · rcases List.mem_cons.mp hy with rfl | hy2
      · have hlt := he x hx2
        rw [hnm, nameLt_irrefl] at hlt
        exact absurd hlt (by simp)
      · exact ih hrest hx2 hy2

theorem liveCount_pos {l : List Entry} {e : Entry} (he : e ∈ l)
    (hlive : e.status ≠ Status.DELETED) : 1 ≤ liveCount l := by
  unfold liveCount
  have hmem : e ∈ l.filter (fun x => decide (x.status ≠ Status.DELETED)) :=
    List.mem_filter.mpr ⟨he, by simp [hlive]⟩
  exact List.length_pos.mpr (fun hnil => by rw [hnil] at hmem; simp at hmem)

theorem size_mod_succ {s m : Nat} (h1 : s < m) (h2 : m < SIZE_MOD) :
    (s + 1) % SIZE_MOD = s + 1 :=
  Nat.mod_eq_of_lt (Nat.lt_of_le_of_lt h1 h2)

theorem size_mod_pred {s : Nat} (h1 : 1 ≤ s) (h2 : s < SIZE_MOD) :
    (s + SIZE_MOD - 1) % SIZE_MOD = s - 1 := by
  unfold SIZE_MOD at h2 ⊢
  omega

theorem isFull_false_of_lt {index : Index}
    (h : index.size < index.maxPackets) : isFull index = false := by
  unfold isFull
  rw [decide_eq_false_iff_not]
  omega

theorem isFull_iff {index : Index} (hwf : WF index) :
    isFull index = true ↔ liveCount index.skipList = index.maxPackets := by
  obtain ⟨_, hsz, hle, _⟩ := hwf
  unfold isFull
  rw [decide_eq_true_eq]
  omega

theorem insertImpl_full {index : Index} {entry : Entry}
    (h : isFull index = true) :
    insertImpl index entry = Except.error indexFullMsg := by
  unfold insertImpl
  rw [if_pos h]

theorem insertImpl_fresh {index : Index} {entry : Entry}
    (hfull : isFull index = false)
    (habs : ∀ x ∈ index.skipList, x.name ≠ entry.name) :
    insertImpl index entry = Except.ok (true,
      { index with skipList := (slInsert index.skipList entry).2,
                   size := (index.size + 1) % SIZE_MOD }) := by
  have hf := slFindName_none_iff.mpr habs
  have hins := slInsert_success habs
  simp [insertImpl, hfull, hf, hins]

theorem insertImpl_resurrect {index : Index} {entry found : Entry}
    (hfull : isFull index = false) (hs : SortedByName index.skipList)
    (hmem : found ∈ index.skipList) (hname : found.name = entry.name)
    (hdel : found.status = Status.DELETED) :
    insertImpl index entry = Except.ok (true,
      { index with
        skipList := (slInsert (slEraseName index.skipList entry.name)
          { entry with status := Status.INSERTED }).2,
        size := (index.size + 1) % SIZE_MOD }) := by
  have hf := slFindName_of_mem hs hmem hname
  have habs2 : ∀ x ∈ slEraseName index.skipList entry.name,
      x.name ≠ ({ entry with status := Status.INSERTED } : Entry).name :=
    fun x hx => slEraseName_not_named hs hx
  have hins := slInsert_success habs2
  simp [insertImpl, hfull, hf, hdel, hins]

theorem insertImpl_live {index : Index} {entry found : Entry}
    (hfull : isFull index = false) (hs : SortedByName index.skipList)
    (hmem : found ∈ index.skipList) (hname : found.name = entry.name)
    (hlive : found.status ≠ Status.DELETED) :
    insertImpl index entry = Except.ok (false, index) := by
  have hf := slFindName_of_mem hs hmem hname
  simp [insertImpl, hfull, hf, hlive]

theorem insertImpl_ok {index : Index} {entry : Entry}
    (hs : SortedByName index.skipList) (hfull : isFull index = false) :
    ∃ r, insertImpl index entry = Except.ok r := by
  by_cases habs : ∀ x ∈ index.skipList, x.name ≠ entry.name
  · exact ⟨_, insertImpl_fresh hfull habs⟩
  · push_neg at habs
    obtain ⟨found, hmem, hname⟩ := habs
    by_cases hdel : found.status = Status.DELETED
    · exact ⟨_, insertImpl_resurrect hfull hs hmem hname hdel⟩
    · exact ⟨_, insertImpl_live hfull hs hmem hname hdel⟩

theorem insertImpl_ok_true {index : Index} {entry : Entry} {st : Index}
    (hs : SortedByName index.skipList)
    (h : insertImpl index entry = Except.ok (true, st)) :
    SortedByName st.skipList ∧
    (entry ∈ st.skipList ∨
      ({ entry with status := Status.INSERTED } : Entry) ∈ st.skipList) ∧
    (∀ x ∈ index.skipList, x.name ≠ entry.name → x ∈ st.skipList) := by
  by_cases hfull : isFull index = true
  · rw [insertImpl_full hfull] at h
    cases h
  · have hfull2 : isFull index = false := Bool.of_not_eq_true hfull
    by_cases habs : ∀ x ∈ index.skipList, x.name ≠ entry.name
    · rw [insertImpl_fresh hfull2 habs] at h
      simp only [Except.ok.injEq, Prod.mk.injEq, true_and] at h
      subst h
      refine ⟨slInsert_sorted entry hs, ?_, ?_⟩
      · exact Or.inl (mem_slInsert_self (slInsert_success habs))
      · intro x hx _
        exact mem_slInsert_of_mem hx
    · push_neg at habs
      obtain ⟨found, hmem, hname⟩ := habs
      by_cases hdel : found.status = Status.DELETED
      · rw [insertImpl_resurrect hfull2 hs hmem hname hdel] at h
        simp only [Except.ok.injEq, Prod.mk.injEq, true_and] at h
        subst h
        have hsog : SortedByName (slEraseName index.skipList entry.name) :=
          slEraseName_sorted entry.name hs
        have hsucc : (slInsert (slEraseName index.skipList entry.name)
            { entry with status := Status.INSERTED }).1 = true :=
          slInsert_success (fun x hx => slEraseName_not_named hs hx)
        refine ⟨slInsert_sorted _ hsog, ?_, ?_⟩
        · exact Or.inr (mem_slInsert_self hsucc)
        · intro x hx hne
          exact mem_slInsert_of_mem (mem_slEraseName_of_mem hx hne)
      · rw [insertImpl_live hfull2 hs hmem hname hdel] at h
        simp at h

theorem erase_not_found {index : Index} {n : Name}
    (habs : ∀ x ∈ index.skipList, x.name ≠ n) :
    erase index n = Except.ok (false, index) := by
  simp [erase, slFindName_none_iff.mpr habs]

theorem erase_found {index : Index} {n : Name} {found : Entry}
    (hs : SortedByName index.skipList)
    (hmem : found ∈ index.skipList) (hname : found.name = n) :
    erase index n = Except.ok (true,
      { index with
        skipList := (slInsert (slEraseName index.skipList n)
          { found with status := Status.DELETED }).2,
        size := (index.size + SIZE_MOD - 1) % SIZE_MOD }) := by
  have hf := slFindName_of_mem hs hmem hname
  have habs2 : ∀ x ∈ slEraseName index.skipList n,
      x.name ≠ ({ found with status := Status.DELETED } : Entry).name := by
    intro x hx
    have hxn := slEraseName_not_named hs hx
    simpa [hname] using hxn
  have hins := slInsert_success habs2
  simp [erase, hf, hins]

/-! ### Reachability of the concrete states through the public API -/

theorem c1State_reachable :
    (insertName (emptyIndex 10) [1, 1] 1 none).bind (fun p =>
      (insertName p.2 [1, 2] 2 none).bind (fun q => erase q.2 [1, 2]))
    = Except.ok (true, c1State) := rfl

theorem c6State_reachable :
    (insertName (emptyIndex 10) [2, 1] 1 none).bind (fun p =>
      (insertName p.2 [2, 2] 2 none).bind (fun q =>
        (insertName q.2 [2, 3] 3 none).bind (fun r =>
          (erase r.2 [2, 2]).bind (fun s => erase s.2 [2, 3]))))
    = Except.ok (true, c6State) := rfl

theorem c4St_reachable :
    (insertName (emptyIndex 2) [1] 1 none).bind (fun p =>
      insertName p.2 [2] 2 none)
    = Except.ok (true, c4St) := rfl

theorem c8St_reachable :
    (insertName (emptyIndex 10) [1] 1 none).bind (fun p =>
      (insertName p.2 [1, 2] 2 none).bind (fun q => erase q.2 [1]))
    = Except.ok (true, c8St) := rfl

/-! ### Claim theorems -/

theorem c1_find_eq_loop (fuel : Nat) :
    findInterest c1State c1Interest fuel =
      rightmostLoop c1List c1Interest none 0 fuel 2 := rfl

theorem c1_loop_stuck :
    ∀ fuel, rightmostLoop c1List c1Interest none 0 fuel 2 = none := by
  intro fuel
  induction fuel with
  | zero => rfl
  | succ k ih => exact ih

/-- Claim C1: the claim states that for every index state and rightmost
query, `find(interest)` returns the lexicographically greatest live matching
descendant and that the windowed `selectChild` equals the reverse-scan
oracle on every input.  The code violates this (code bug): on the reachable
state `c1State` (insert `/1/1`, insert `/1/2`, erase `/1/2`) with rightmost
query `/1`, the window-narrowing `while (true)` loop never returns — at every
fuel bound the embedded loop is still running — because the window `last`
iterator reproduces itself once the subtree the window narrows to consists
only of tombstones; the reference oracle returns the live entry `(1, /1/1)`. -/
theorem c1_windowed_diverges_from_oracle :
    (∀ fuel, findInterest c1State c1Interest fuel = none) ∧
    rightmostOracle c1State c1Interest = (1, [1, 1]) := by
  constructor
  · intro fuel
    rw [c1_find_eq_loop fuel]
    exact c1_loop_stuck fuel
  · rfl

theorem c6_find_eq_loop (fuel : Nat) :
    findInterest c6State c6Interest fuel =
      rightmostLoop c6List c6Interest none 0 fuel 3 := rfl

theorem c6_loop_stuck :
    ∀ fuel, rightmostLoop c6List c6Interest none 0 fuel 3 = none := by
  intro fuel
  induction fuel with
  | zero => rfl
  | succ k ih => exact ih

/-- Claim C6: the claim states that every operation terminates on every
reachable state, in particular the `while (true)` loop of `selectChild`.
The code violates this (code bug): on the reachable state `c6State` (three
inserts under `/2`, then erase `/2/2` and `/2/3`) the rightmost query `/2`
makes the loop run forever — the embedded loop yields no result at any fuel
bound, the fuel-indexed runs forming an infinite non-returning sequence. -/
theorem c6_selectChild_nonterminating :
    ∀ fuel, findInterest c6State c6Interest fuel = none := by
  intro fuel
  rw [c6_find_eq_loop fuel]
  exact c6_loop_stuck fuel

/-- Claim C10: the claim states that the simple-selector predicate never
dereferences an absent key-locator hash.  The code violates this (code
bug): a `Data` whose signature carries no key locator is indexed with a
null `keyLocatorHash` (index.cpp lines 303-305), and a query carrying a
publisher key locator then reaches `*entry.getKeyLocatorHash()` on that
entry (line 56) — a null-pointer dereference, modelled as the `none`
result. -/
theorem c10_null_hash_dereference_reachable :
    insertData (emptyIndex 10) { fullName := [1], signatureKeyLocator := none } 1
      = Except.ok (true, c2State) ∧
    (entryOfData { fullName := [1], signatureKeyLocator := none } 1).keyLocatorHash
      = none ∧
    findInterest c2State c2Interest 0 = none := ⟨rfl, rfl, rfl⟩

/-- Claim C3: the claim states that `size = live count ≤ maximum` holds in
every reachable state, in particular across `erase` of an already-DELETED
name.  The code violates this (code bug): `Index::erase` finds a tombstone
by name (the comparator ignores status), re-marks it and still runs
`m_size--`, so a second `erase(/1)` drives the `size_t` counter from 0 to
`2^64 - 1`, destroying both conjuncts of the invariant. -/
theorem c3_double_erase_breaks_invariant :
    insertName (emptyIndex 10) [1] 1 none = Except.ok (true, c3St1) ∧
    erase c3St1 [1] = Except.ok (true, c3St2) ∧
    c3St2.size = liveCount c3St2.skipList ∧
    erase c3St2 [1] = Except.ok (true, c3St3) ∧
    liveCount c3St3.skipList = 0 ∧
    c3St3.size = SIZE_MOD - 1 ∧
    ¬ (c3St3.size = liveCount c3St3.skipList ∧
       c3St3.size ≤ c3St3.maxPackets) := by
  refine ⟨rfl, rfl, rfl, rfl, rfl, rfl, ?_⟩
  intro h
  exact absurd h.1 (by decide)

/-- Claim C2 counterexample: as universally stated the claim fails, because
on the reachable state `c2State` — holding one entry with no stored
key-locator hash — the leftmost query `c2Interest` carrying a publisher key
locator makes `matchesSimpleSelectors` dereference a null pointer (the
`none` outcome), whereas the claimed result is the not-found pair, the
entry not matching the claimed predicate. -/
theorem c2_counterexample :
    findInterest c2State c2Interest 0 = none ∧
    specLeftmostResult c2State c2Interest = (0, []) ∧
    (none : Option (Int × Name)) ≠ some (specLeftmostResult c2State c2Interest) :=
  ⟨rfl, rfl, by decide⟩

/-- Claim C2 (amended): for every well-formed index state and every query
with a non-positive child-selector value, provided every entry stores a
key-locator hash whenever the query carries a publisher key locator (the
condition forced by the counterexample above), `find(interest)` returns the
canonically least entry satisfying the simple-selector predicate, and the
not-found pair `(0, empty)` when none exists. -/
theorem c2_find_leftmost_characterization (index : Index) (i : Interest)
    (fuel : Nat) (hwf : WF index) (hsel : i.childSelector ≤ 0)
    (hkl : i.publisherPublicKeyLocator = none ∨
      ∀ e ∈ index.skipList, e.keyLocatorHash ≠ none) :
    findInterest index i fuel = some (specLeftmostResult index i) :=
  findInterest_leftmost index i fuel hwf.1 hsel hkl

theorem c2_find_leftmost_witness :
    findInterest c4St c2WInterest 0 = some (specLeftmostResult c4St c2WInterest) :=
  c2_find_leftmost_characterization c4St c2WInterest 0 (by decide) (by decide)
    (Or.inl rfl)

theorem specFirstLive_exact {index : Index} {n : Name} {e : Entry}
    (hs : SortedByName index.skipList) (he : e ∈ index.skipList)
    (hname : e.name = n) (hlive : e.status ≠ Status.DELETED) :
    specFirstLive index n = (e.id, e.name) := by
  have hpe : (decide (e.status ≠ Status.DELETED) &&
      nameIsPrefixOf n e.name) = true := by
    rw [hname] at *
    simp [hlive, nameIsPrefixOf_refl]
  have hmin : ∀ x ∈ index.skipList,
      (decide (x.status ≠ Status.DELETED) && nameIsPrefixOf n x.name) = true →
      x = e ∨ nameLt e.name x.name = true := by
    intro x hx hpx
    have hp : nameIsPrefixOf n x.name = true := by
      simp only [Bool.and_eq_true] at hpx
      exact hpx.2
    by_cases hxn : x.name = n
    · exact Or.inl (sorted_name_unique hs hx he (by rw [hxn, hname]))
    · right
      rw [hname]
      exact strict_prefix_lt n x.name hp (fun h => hxn h.symm)
  unfold specFirstLive
  rw [sorted_find?_min hs he hpe hmin]

/-- Claim C4 counterexample: with capacity 2 and live entries `/1`, `/2`,
inserting `/3` raises CapacityExceeded, but after a single `erase(/1)` the
same insert already succeeds — no `prune()` is required — because `erase`
decremented `m_size` (index.cpp line 201) below the configured maximum. -/
theorem c4_counterexample :
    insertName c4St [3] 3 none = Except.error indexFullMsg ∧
    erase c4St [1] = Except.ok (true, c4St2) ∧
    insertName c4St2 [3] 3 none = Except.ok (true, c4St3) ∧
    removeDeletedEntry c4St2 ≠ c4St2 := ⟨rfl, rfl, rfl, by decide⟩

/-- Claim C4 (amended): with the index at its configured maximum of live
entries, a fresh insert raises CapacityExceeded; after soft-deleting one
live entry with `erase`, an insert of a new distinct name succeeds at once
— without `prune()` — and brings the live size back to the maximum, the
tombstone remaining as a physical slot only. -/
theorem c4_erase_frees_capacity (index : Index) (n n2 : Name) (id2 : Int)
    (klh2 : Option HashVal) (hwf : WF index)
    (hfull : liveCount index.skipList = index.maxPackets)
    (e : Entry) (he : e ∈ index.skipList) (hen : e.name = n)
    (hlive : e.status ≠ Status.DELETED)
    (hfresh : ∀ x ∈ index.skipList, x.name ≠ n2) :
    insertName index n2 id2 klh2 = Except.error indexFullMsg ∧
    ∃ st2, erase index n = Except.ok (true, st2) ∧
      ∃ st3, insertName st2 n2 id2 klh2 = Except.ok (true, st3) ∧
        st3.size = index.maxPackets := by
  obtain ⟨hs, hsz, hle, hm⟩ := hwf
  have hone : 1 ≤ liveCount index.skipList := liveCount_pos he hlive
  have hsize : index.size = index.maxPackets := by omega
  constructor
  · exact insertImpl_full (by unfold isFull; rw [decide_eq_true_eq]; omega)
  · refine ⟨_, erase_found hs he hen, ?_⟩
    have hsz2 : (index.size + SIZE_MOD - 1) % SIZE_MOD
        = index.maxPackets - 1 := by
      rw [size_mod_pred (by omega) (by omega), hsize]
    have hfull2 : isFull { index with
        skipList := (slInsert (slEraseName index.skipList n)
          { e with status := Status.DELETED }).2,
        size := (index.size + SIZE_MOD - 1) % SIZE_MOD } = false := by
      apply isFull_false_of_lt
      show (index.size + SIZE_MOD - 1) % SIZE_MOD < index.maxPackets
      omega
    have hfresh2 : ∀ x ∈ (slInsert (slEraseName index.skipList n)
        { e with status := Status.DELETED }).2, x.name ≠ n2 := by
      intro x hx
      rcases slInsert_mem hx with h | rfl
      · exact hfresh x ((slEraseName_sublist index.skipList n).subset h)
      · show e.name ≠ n2
        exact hfresh e he
    refine ⟨_, insertImpl_fresh hfull2 hfresh2, ?_⟩
    show ((index.size + SIZE_MOD - 1) % SIZE_MOD + 1) % SIZE_MOD
        = index.maxPackets
    rw [hsz2, @size_mod_succ (index.maxPackets - 1) index.maxPackets
      (by omega) hm]
    omega

theorem c4_erase_frees_capacity_witness :
    insertName c4St [3] 3 none = Except.error indexFullMsg ∧
    ∃ st2, erase c4St [1] = Except.ok (true, st2) ∧
      ∃ st3, insertName st2 [3] 3 none = Except.ok (true, st3) ∧
        st3.size = c4St.maxPackets :=
  c4_erase_frees_capacity c4St [1] [3] 3 none (by decide) (by decide)
    { name := [1], keyLocatorHash := none, id := 1, status := Status.EXISTED }
    (by decide) rfl (by decide) (by decide)

/-- Claim C5: `insert` raises CapacityExceeded exactly when the live size
equals the configured maximum (on the error path the model returns no new
state, i.e. the index is untouched); below capacity, an absent name gives a
fresh `EXISTED` entry with `size + 1`, a tombstoned name gives a resurrected
`INSERTED` entry with the new id and hash and `size + 1`, and a live
occupant gives `false` with the index unchanged.  The check itself
(`isFull`) lives in the missing header and is modelled from spec section 7.
The two `insert` overloads share this behaviour (last conjunct). -/
theorem c5_insert_characterization (index : Index) (n : Name) (id : Int)
    (klh : Option HashVal) (hwf : WF index) :
    (insertName index n id klh = Except.error indexFullMsg ↔
      liveCount index.skipList = index.maxPackets) ∧
    (liveCount index.skipList ≠ index.maxPackets →
      ((∀ x ∈ index.skipList, x.name ≠ n) →
        ∃ st, insertName index n id klh = Except.ok (true, st) ∧
          st.size = index.size + 1 ∧
          ({ name := n, keyLocatorHash := klh, id := id,
             status := Status.EXISTED } : Entry) ∈ st.skipList) ∧
      (∀ found ∈ index.skipList, found.name = n →
        (found.status = Status.DELETED →
          ∃ st, insertName index n id klh = Except.ok (true, st) ∧
            st.size = index.size + 1 ∧
            ({ name := n, keyLocatorHash := klh, id := id,
               status := Status.INSERTED } : Entry) ∈ st.skipList) ∧
        (found.status ≠ Status.DELETED →
          insertName index n id klh = Except.ok (false, index)))) ∧
    (∀ d id2, insertData index d id2 =
      insertName index d.fullName id2
        (d.signatureKeyLocator.map computeKeyLocatorHash)) := by
  obtain ⟨hs, hsz, hle, hm⟩ := hwf
  refine ⟨⟨?_, ?_⟩, ?_, fun d id2 => rfl⟩
  · intro herr
    by_contra hne
    have hfull : isFull index = false := by
      unfold isFull
      rw [decide_eq_false_iff_not]
      omega
    obtain ⟨r, hr⟩ := @insertImpl_ok index
      ⟨n, klh, id, Status.EXISTED⟩ hs hfull
    rw [show insertName index n id klh
        = insertImpl index ⟨n, klh, id, Status.EXISTED⟩ from rfl, hr] at herr
    cases herr
  · intro hfl
    apply insertImpl_full
    unfold isFull
    rw [decide_eq_true_eq]
    omega
  · intro hne
    have hfull : isFull index = false := by
      unfold isFull
      rw [decide_eq_false_iff_not]
      omega
    have hlt : index.size < index.maxPackets := by omega
    refine ⟨?_, ?_⟩
    · intro habs
      refine ⟨_, insertImpl_fresh hfull habs, ?_, ?_⟩
      · exact size_mod_succ hlt hm
      · exact mem_slInsert_self (slInsert_success habs)
    · intro found hmem hname
      refine ⟨?_, ?_⟩
      · intro hdel
        refine ⟨_, insertImpl_resurrect hfull hs hmem hname hdel, ?_, ?_⟩
        · exact size_mod_succ hlt hm
        · exact mem_slInsert_self
            (slInsert_success (fun x hx => slEraseName_not_named hs hx))
      · intro hlive2
        exact insertImpl_live hfull hs hmem hname hlive2

theorem c5_insert_witness :
    insertName c4St [3] 3 none = Except.error indexFullMsg :=
  (c5_insert_characterization c4St [3] 3 none (by decide)).1.mpr (by decide)

/-- Claim C7 counterexample: as universally stated — "for every name ...
the sequence, starting from a state where the name is absent" — the claim
fails at an index already at capacity: with capacity 0 the first insert
raises CapacityExceeded, the sequence aborts with an error instead of
leaving `hasData` true. -/
theorem c7_counterexample :
    c7seq = Except.error indexFullMsg ∧
    hasData (emptyIndex 0) { fullName := [1], signatureKeyLocator := none }
      = false := ⟨rfl, rfl⟩

/-- Claim C7 (amended): for every name absent from a well-formed index that
is strictly below capacity, `insert(n, id1); erase(n); insert(n, id2)`
succeeds throughout, leaves `hasData` true for that name, leaves `size`
equal to its value before the erase, and stores `id2` — returned by the
subsequent `find(n)`. -/
theorem insert_fresh_state (index : Index) (n : Name) (id : Int)
    (klh : Option HashVal)
    (hs : SortedByName index.skipList) (hm : index.maxPackets < SIZE_MOD)
    (hcap : index.size < index.maxPackets)
    (habs : ∀ x ∈ index.skipList, x.name ≠ n) :
    ∃ st, insertName index n id klh = Except.ok (true, st) ∧
      SortedByName st.skipList ∧
      st.size = index.size + 1 ∧ st.maxPackets = index.maxPackets ∧
      ({ name := n, keyLocatorHash := klh, id := id,
         status := Status.EXISTED } : Entry) ∈ st.skipList := by
  exact ⟨_, insertImpl_fresh (isFull_false_of_lt hcap) habs,
    slInsert_sorted _ hs, size_mod_succ hcap hm, rfl,
    mem_slInsert_self (slInsert_success habs)⟩

theorem erase_state (index : Index) {found : Entry} (n : Name)
    (hs : SortedByName index.skipList)
    (hmem : found ∈ index.skipList) (hname : found.name = n)
    (h1 : 1 ≤ index.size) (h2 : index.size < SIZE_MOD) :
    ∃ st, erase index n = Except.ok (true, st) ∧
      SortedByName st.skipList ∧
      st.size = index.size - 1 ∧ st.maxPackets = index.maxPackets ∧
      ({ found with status := Status.DELETED } : Entry) ∈ st.skipList := by
  refine ⟨_, erase_found hs hmem hname,
    slInsert_sorted _ (slEraseName_sorted _ hs), size_mod_pred h1 h2, rfl,
    mem_slInsert_self (slInsert_success ?_)⟩
  intro x hx
  have hxn := slEraseName_not_named hs hx
  simpa [hname] using hxn

theorem insert_resurrect_state (index : Index) {found : Entry} (n : Name)
    (id : Int) (klh : Option HashVal)
    (hs : SortedByName index.skipList) (hm : index.maxPackets < SIZE_MOD)
    (hcap : index.size < index.maxPackets)
    (hmem : found ∈ index.skipList) (hname : found.name = n)
    (hdel : found.status = Status.DELETED) :
    ∃ st, insertName index n id klh = Except.ok (true, st) ∧
      SortedByName st.skipList ∧
      st.size = index.size + 1 ∧ st.maxPackets = index.maxPackets ∧
      ({ name := n, keyLocatorHash := klh, id := id,
         status := Status.INSERTED } : Entry) ∈ st.skipList := by
  exact ⟨_, insertImpl_resurrect (isFull_false_of_lt hcap) hs hmem hname hdel,
    slInsert_sorted _ (slEraseName_sorted _ hs),
    size_mod_succ hcap hm, rfl,
    mem_slInsert_self (slInsert_success
      (fun x hx => slEraseName_not_named hs hx))⟩

theorem c7_resurrection (index : Index) (n : Name) (id1 id2 : Int)
    (klh1 klh2 : Option HashVal) (hwf : WF index)
    (habs : ∀ x ∈ index.skipList, x.name ≠ n)
    (hcap : index.size < index.maxPackets) :
    ∃ st1 st2 st3,
      insertName index n id1 klh1 = Except.ok (true, st1) ∧
      erase st1 n = Except.ok (true, st2) ∧
      insertName st2 n id2 klh2 = Except.ok (true, st3) ∧
      hasData st3 { fullName := n, signatureKeyLocator := none } = true ∧
      st3.size = st1.size ∧
      findName st3 n = (id2, n) := by
  obtain ⟨hs, hsz, hle, hm⟩ := hwf
  obtain ⟨st1, h1, hs1, hsz1, hmp1, he1⟩ :=
    insert_fresh_state index n id1 klh1 hs hm hcap habs
  obtain ⟨st2, h2, hs2, hsz2, hmp2, hte⟩ :=
    erase_state st1 n hs1 he1 rfl (by omega) (by omega)
  have hm2 : st2.maxPackets < SIZE_MOD := by omega
  have hcap2 : st2.size < st2.maxPackets := by omega
  obtain ⟨st3, h3, hs3, hsz3, hmp3, he3⟩ :=
    insert_resurrect_state st2 n id2 klh2 hs2 hm2 hcap2 hte rfl rfl
  refine ⟨st1, st2, st3, h1, h2, h3, ?_, by omega, ?_⟩
  · unfold hasData
    rw [slFindName_of_mem hs3 he3 rfl]
    simp
  · rw [findName_eq st3 n hs3]
    exact specFirstLive_exact hs3 he3 rfl (fun hcon => Status.noConfusion hcon)

theorem c7_resurrection_witness :
    ∃ st1 st2 st3,
      insertName (emptyIndex 10) [1] 1 none = Except.ok (true, st1) ∧
      erase st1 [1] = Except.ok (true, st2) ∧
      insertName st2 [1] 2 none = Except.ok (true, st3) ∧
      hasData st3 { fullName := [1], signatureKeyLocator := none } = true ∧
      st3.size = st1.size ∧
      findName st3 [1] = (2, [1]) :=
  c7_resurrection (emptyIndex 10) [1] 1 2 none none (by decide) (by decide)
    (by decide)

/-- Claim C8 counterexample: after `insert(/1); insert(/1/2); erase(/1)`,
`getStatus(/1)` is DELETED as claimed, but after `prune()` it is EXISTED —
the status of the surviving live descendant `/1/2` — not NONE as the claim
states. -/
theorem c8_counterexample :
    getStatus c8St [1] = Status.DELETED ∧
    getStatus (removeDeletedEntry c8St) [1] = Status.EXISTED ∧
    Status.EXISTED ≠ Status.NONE := ⟨rfl, rfl, by decide⟩

/-- Claim C8 (amended): `getStatus(n)` is the status of the first entry (in
canonical order) whose name extends `n` — DELETED is reported, not hidden —
and NONE when there is none; hence after `erase(n)` the tombstone at `n`
makes `getStatus(n)` DELETED until `prune()`, and after `prune()` the result
is NONE provided no remaining entry extending `n` is live (otherwise it is
the status of the first such survivor). -/
theorem c8_getStatus_characterization (index : Index) (n : Name)
    (hwf : WF index) :
    getStatus index n =
      statusDenote (index.skipList.find? (fun e => nameIsPrefixOf n e.name)) ∧
    (∀ e ∈ index.skipList, e.name = n → e.status = Status.DELETED →
      getStatus index n = Status.DELETED) ∧
    ((∀ e ∈ index.skipList, nameIsPrefixOf n e.name = true →
        e.status = Status.DELETED) →
      getStatus (removeDeletedEntry index) n = Status.NONE) := by
  have hs := hwf.1
  refine ⟨getStatus_eq index n hs, ?_, ?_⟩
  · intro e he hname hdel
    rw [getStatus_eq index n hs]
    have hfind : index.skipList.find? (fun x => nameIsPrefixOf n x.name)
        = some e := by
      apply sorted_find?_min hs he
      · rw [hname]
        exact nameIsPrefixOf_refl n
      · intro x hx hpx
        by_cases hxn : x.name = n
        · exact Or.inl (sorted_name_unique hs hx he (by rw [hxn, hname]))
        · right
          rw [hname]
          exact strict_prefix_lt n x.name hpx (fun h => hxn h.symm)
    rw [hfind, statusDenote, hdel]
  · intro hall
    have hsp : SortedByName (removeDeletedEntry index).skipList :=
      List.Pairwise.sublist (List.filter_sublist _) hs
    rw [getStatus_eq _ n hsp]
    have hnone : (removeDeletedEntry index).skipList.find?
        (fun x => nameIsPrefixOf n x.name) = none := by
      rw [List.find?_eq_none]
      intro x hx
      simp only [Bool.not_eq_true]
      obtain ⟨hxl, hxlive⟩ := List.mem_filter.mp hx
      cases hp : nameIsPrefixOf n x.name with
      | false => rfl
      | true =>
        have hxdel := hall x hxl hp
        rw [hxdel] at hxlive
        simp at hxlive
    rw [hnone, statusDenote]

theorem c8_getStatus_witness :
    getStatus c8St [1] =
      statusDenote (c8St.skipList.find? (fun e => nameIsPrefixOf [1] e.name)) :=
  (c8_getStatus_characterization c8St [1] (by decide)).1

/-- Claim C9: the selector-free `find(name)` returns the `(id, name)` of the
lexicographically first live entry whose name has the queried name as a
prefix (the not-found pair when none exists); consequently, after inserting
two distinct names each with its own id, each bare-name query returns its
own pair. -/
theorem c9_selector_free_find :
    (∀ index n, WF index → findName index n = specFirstLive index n) ∧
    (∀ index A B idA idB klhA klhB st1 st2, WF index → A ≠ B →
      insertName index A idA klhA = Except.ok (true, st1) →
      insertName st1 B idB klhB = Except.ok (true, st2) →
      findName st2 A = (idA, A) ∧ findName st2 B = (idB, B)) := by
  constructor
  · exact fun index n hwf => findName_eq index n hwf.1
  · intro index A B idA idB klhA klhB st1 st2 hwf hAB h1 h2
    obtain ⟨hs1, hm1, hp1⟩ := insertImpl_ok_true hwf.1 h1
    obtain ⟨hs2, hm2, hp2⟩ := insertImpl_ok_true hs1 h2
    have hA1 : ∃ eA ∈ st1.skipList, eA.name = A ∧ eA.id = idA ∧
        eA.status ≠ Status.DELETED := by
      rcases hm1 with h | h
      · exact ⟨_, h, rfl, rfl, fun hcon => Status.noConfusion hcon⟩
      · exact ⟨_, h, rfl, rfl, fun hcon => Status.noConfusion hcon⟩
    obtain ⟨eA, heA1, hnameA, hidA, hliveA⟩ := hA1
    have heA2 : eA ∈ st2.skipList := by
      apply hp2 eA heA1
      rw [hnameA]
      exact hAB
    have hB2 : ∃ eB ∈ st2.skipList, eB.name = B ∧ eB.id = idB ∧
        eB.status ≠ Status.DELETED := by
      rcases hm2 with h | h
      · exact ⟨_, h, rfl, rfl, fun hcon => Status.noConfusion hcon⟩
      · exact ⟨_, h, rfl, rfl, fun hcon => Status.noConfusion hcon⟩
    obtain ⟨eB, heB2, hnameB, hidB, hliveB⟩ := hB2
    constructor
    · rw [findName_eq st2 A hs2, specFirstLive_exact hs2 heA2 hnameA hliveA,
        hidA, hnameA]
    · rw [findName_eq st2 B hs2, specFirstLive_exact hs2 heB2 hnameB hliveB,
        hidB, hnameB]

theorem c9_selector_free_find_witness :
    findName c4St [1] = (1, [1]) ∧ findName c4St [2] = (2, [2]) :=
  c9_selector_free_find.2 (emptyIndex 2) [1] [2] 1 2 none none _ c4St
    (by decide) (by decide) rfl rfl

end Repo
